import Mathlib

/-!
Verification development for `stock_tracker.py`, a small CLI stock tracker.

The Python source is embedded shallowly:
* floats are modelled by `ℚ` (exact rational arithmetic; the program's
  arithmetic is plain +, *, / on values the user typed);
* a normalized portfolio row (a dict with keys `symbol`, `shares`, `price`)
  becomes the structure `Row`;
* the raw JSON file content is modelled by `PyVal` / `FileState`;
* functions that can raise return `Except`/`Option`.
-/

namespace StockTracker

/-- One normalized holding row, as produced by `load_portfolio`:
dict keys `symbol`, `shares`, `price` (the cost basis per share). -/
structure Row where
  symbol : String
  shares : ℚ
  price : ℚ
  deriving Repr, DecidableEq

/-- Python `str.upper()`: character-wise upper-casing (ASCII case mapping,
as Lean's `Char.toUpper`), written over the character list so that it
evaluates inside the kernel. -/
def pyUpper (s : String) : String :=
  ⟨s.data.map Char.toUpper⟩

/-- Python `str.strip()`: remove leading and trailing whitespace. -/
def pyStrip (s : String) : String :=
  ⟨((s.data.dropWhile Char.isWhitespace).reverse.dropWhile
      Char.isWhitespace).reverse⟩

/-- Merge of an existing row with an incoming lot, mirroring the body of
`add_stock` when `find_row` found an existing entry: `new_total_shares =
old_shares + shares`; the weighted-average price is written only when
`new_total_shares > 0`, and `shares` is always overwritten. -/
def mergeRow (r : Row) (shares cost : ℚ) : Row :=
  let newTotal := r.shares + shares
  { symbol := r.symbol
    shares := newTotal
    price := if 0 < newTotal then (r.shares * r.price + shares * cost) / newTotal
             else r.price }

/-- Upsert core of `add_stock` (lines 114–129): `find_row` locates the first
row whose uppercased symbol equals `sym` and that dict is updated in place;
when none matches, `{"symbol": sym, "shares": shares, "price": cost}` is
appended. The in-place dict mutation is rendered as replacing the first
matching element of the list. -/
def upsert (rows : List Row) (sym : String) (shares cost : ℚ) : List Row :=
  match rows with
  | [] => [⟨sym, shares, cost⟩]
  | r :: rest =>
    if pyUpper r.symbol = sym then mergeRow r shares cost :: rest
    else r :: upsert rest sym shares cost

/-- Lookup used by `add_stock`: `find_row` uppercases and strips the query
symbol, then returns the first row whose uppercased stored symbol equals it
(the stored symbol itself is not stripped). -/
def find_row (rows : List Row) (symbol : String) : Option Row :=
  let s := pyStrip (pyUpper symbol)
  rows.find? fun r => pyUpper r.symbol = s

/-- Numeric value of a digit list (most significant first). -/
def digitsVal (cs : List Char) : ℕ :=
  cs.foldl (fun a c => a * 10 + (c.toNat - 48)) 0

/-- Exponent suffix of a Python float literal: a non-empty digit string,
scaling the mantissa by the corresponding power of ten. -/
def parseExpPart (mant : ℚ) (neg : Bool) (ds : List Char) : Option ℚ :=
  if ds ≠ [] ∧ ds.all Char.isDigit then
    some (if neg then mant / 10 ^ digitsVal ds else mant * 10 ^ digitsVal ds)
  else none

/-- Optional exponent of a Python float literal (`e`/`E`, optional sign,
digits); an empty remainder returns the mantissa unchanged. -/
def parseExp (mant : ℚ) : List Char → Option ℚ
  | [] => some mant
  | c :: rest =>
    if c = 'e' ∨ c = 'E' then
      match rest with
      | '+' :: ds => parseExpPart mant false ds
      | '-' :: ds => parseExpPart mant true ds
      | ds => parseExpPart mant false ds
    else none

/-- Unsigned part of a Python float literal: digits with an optional
fractional part (at least one digit overall), then an optional exponent. -/
def parseUnsigned (cs : List Char) : Option ℚ :=
  let ip := cs.takeWhile Char.isDigit
  let rest1 := cs.dropWhile Char.isDigit
  match rest1 with
  | '.' :: rest2 =>
    let fp := rest2.takeWhile Char.isDigit
    let rest3 := rest2.dropWhile Char.isDigit
    if ip = [] ∧ fp = [] then none
    else parseExp ((digitsVal ip : ℚ) + (digitsVal fp : ℚ) / 10 ^ fp.length) rest3
  | _ => if ip = [] then none else parseExp (digitsVal ip) rest1

/-- Python `float(s)` on a string: surrounding whitespace is ignored, then an
optional sign and a decimal literal with optional fraction and exponent.
`none` models the `ValueError` raised on anything else.  (The rational model
has no representation for the `inf`/`nan` literals or underscore separators,
so those also map to `none`.) -/
def pyFloatOfString (s : String) : Option ℚ :=
  match (pyStrip s).data with
  | '+' :: rest => parseUnsigned rest
  | '-' :: rest => (parseUnsigned rest).map Neg.neg
  | cs => parseUnsigned cs

/-- The early-return error messages of `add_stock`, one per `print`/`return`
path taken before any mutation. -/
inductive AddError where
  | emptySymbol
  | invalidShares
  | nonPositiveShares
  | invalidCost
  | negativeCost
  deriving Repr, DecidableEq

/-- Outcome of one `add_stock` call: the in-memory rows when the function
returns, which error message (if any) was printed, and whether
`save_portfolio` was reached. -/
structure AddResult where
  rows : List Row
  error : Option AddError
  saved : Bool
  deriving Repr, DecidableEq

/-- The `add_stock` menu action (lines 85–129), with the three `input()`
strings as parameters and the loaded portfolio as explicit state: the symbol
is stripped and uppercased and must be non-empty; shares must parse as a
float and be `> 0`; the cost must parse as a float and be `>= 0`; every
violation returns before touching `rows`; on success the row is upserted and
the portfolio saved. -/
def add_stock (rows : List Row) (symInput sharesInput costInput : String) :
    AddResult :=
  let sym := pyUpper (pyStrip symInput)
  if sym = "" then ⟨rows, some .emptySymbol, false⟩
  else
    match pyFloatOfString (pyStrip sharesInput) with
    | none => ⟨rows, some .invalidShares, false⟩
    | some shares =>
      if shares ≤ 0 then ⟨rows, some .nonPositiveShares, false⟩
      else
        match pyFloatOfString (pyStrip costInput) with
        | none => ⟨rows, some .invalidCost, false⟩
        | some cost =>
          if cost < 0 then ⟨rows, some .negativeCost, false⟩
          else ⟨upsert rows sym shares cost, none, true⟩

/-- C1: for any store holding no row for symbol `S`, two sequential upserts
(add operations) of `(s1, c1)` then `(s2, c2)` on `S`, with positive shares
and non-negative costs, leave a single new holding for `S` whose shares are
`s1 + s2` and whose cost basis is the weighted average
`(s1*c1 + s2*c2) / (s1 + s2)`; all other rows are untouched. -/
theorem upsert_fresh_twice (rows : List Row) (S : String) (s1 c1 s2 c2 : ℚ)
    (hS : pyUpper S = S)
    (hfresh : ∀ r ∈ rows, pyUpper r.symbol ≠ S)
    (h1 : 0 < s1) (h2 : 0 < s2) (_hc1 : 0 ≤ c1) (_hc2 : 0 ≤ c2) :
    upsert (upsert rows S s1 c1) S s2 c2
      = rows ++ [⟨S, s1 + s2, (s1 * c1 + s2 * c2) / (s1 + s2)⟩] := by
  induction rows with
  | nil =>
    have hpos : 0 < s1 + s2 := add_pos h1 h2
    simp [upsert, mergeRow, hS, hpos]
  | cons r rest ih =>
    have hr : pyUpper r.symbol ≠ S := hfresh r (List.mem_cons_self r rest)
    simp only [upsert, if_neg hr, List.cons_append]
    exact congrArg (r :: ·) (ih fun r' hr' => hfresh r' (List.mem_cons_of_mem r hr'))

/-- Witness for C1 at the spec's own example: merging `{AAPL, 2, 100}` with
`{AAPL, 2, 150}` by two upserts into an empty store yields `{AAPL, 4, 125}`. -/
theorem upsert_fresh_twice_witness :
    upsert (upsert ([] : List Row) "AAPL" 2 100) "AAPL" 2 150
      = [⟨"AAPL", 4, 125⟩] := by
  have h := upsert_fresh_twice [] "AAPL" 2 100 2 150 (by decide)
    (by intro r hr; cases hr) (by norm_num) (by norm_num) (by norm_num) (by norm_num)
  rw [h]
  norm_num

/-- C2: upsert is order-independent.  For a store whose holdings all have
non-negative share counts (the data-model invariant even guarantees they are
positive), upserting `(s1, c1)` then `(s2, c2)` for symbol `S` produces
exactly the same store as upserting `(s2, c2)` then `(s1, c1)`, for all
positive share inputs and non-negative costs. -/
theorem upsert_comm (rows : List Row) (S : String) (s1 c1 s2 c2 : ℚ)
    (hS : pyUpper S = S) (h1 : 0 < s1) (h2 : 0 < s2)
    (_hc1 : 0 ≤ c1) (_hc2 : 0 ≤ c2)
    (hrows : ∀ r ∈ rows, 0 ≤ r.shares) :
    upsert (upsert rows S s1 c1) S s2 c2
      = upsert (upsert rows S s2 c2) S s1 c1 := by
  induction rows with
  | nil =>
    have h12 : (0 : ℚ) < s1 + s2 := add_pos h1 h2
    have h21 : (0 : ℚ) < s2 + s1 := add_pos h2 h1
    simp only [upsert, mergeRow, hS, if_pos rfl, if_pos h12, if_pos h21, if_true]
    rw [add_comm s2 s1, add_comm (s2 * c2) (s1 * c1)]
  | cons r rest ih =>
    by_cases hm : pyUpper r.symbol = S
    · have hr0 : 0 ≤ r.shares := hrows r (List.mem_cons_self r rest)
      have e1 : (0 : ℚ) < r.shares + s1 := add_pos_of_nonneg_of_pos hr0 h1
      have e2 : (0 : ℚ) < r.shares + s2 := add_pos_of_nonneg_of_pos hr0 h2
      have e12 : (0 : ℚ) < r.shares + s1 + s2 := add_pos e1 h2
      have e21 : (0 : ℚ) < r.shares + s2 + s1 := add_pos e2 h1
      simp only [upsert, mergeRow, hm, if_pos rfl, if_pos e1, if_pos e2,
        if_pos e12, if_pos e21, if_true, List.cons.injEq, Row.mk.injEq,
        true_and, and_true]
      constructor
      · ring
      · have ne1 : r.shares + s1 ≠ 0 := e1.ne'
        have ne2 : r.shares + s2 ≠ 0 := e2.ne'
        have ne12 : r.shares + s1 + s2 ≠ 0 := e12.ne'
        have ne21 : r.shares + s2 + s1 ≠ 0 := e21.ne'
        field_simp
        ring
    · simp only [upsert, if_neg hm]
      exact congrArg (r :: ·)
        (ih fun r' hr' => hrows r' (List.mem_cons_of_mem r hr'))

/-- Witness for C2: adding (2 shares @ 100) and (3 shares @ 50) of AAPL to a
store holding one MSFT row commutes. -/
theorem upsert_comm_witness :
    upsert (upsert [(⟨"MSFT", 1, 10⟩ : Row)] "AAPL" 2 100) "AAPL" 3 50
      = upsert (upsert [(⟨"MSFT", 1, 10⟩ : Row)] "AAPL" 3 50) "AAPL" 2 100 :=
  upsert_comm [⟨"MSFT", 1, 10⟩] "AAPL" 2 100 3 50 (by decide) (by norm_num)
    (by norm_num) (by norm_num) (by norm_num) (by decide)

/-- C3: `add_stock` is atomic under validation failure.  Whenever the
stripped symbol is empty, or the shares input parses to a value `≤ 0`, or
the cost input parses to a negative value, the call reports a validation
error, leaves the holdings exactly as they were, and never reaches
`save_portfolio`. -/
theorem add_stock_atomic (rows : List Row) (symIn sharesIn costIn : String)
    (h : pyUpper (pyStrip symIn) = ""
      ∨ (∃ q, pyFloatOfString (pyStrip sharesIn) = some q ∧ q ≤ 0)
      ∨ (∃ q, pyFloatOfString (pyStrip costIn) = some q ∧ q < 0)) :
    (add_stock rows symIn sharesIn costIn).error.isSome = true
      ∧ (add_stock rows symIn sharesIn costIn).rows = rows
      ∧ (add_stock rows symIn sharesIn costIn).saved = false := by
  simp only [add_stock]
  by_cases hsym : pyUpper (pyStrip symIn) = ""
  · rw [if_pos hsym]; exact ⟨rfl, rfl, rfl⟩
  · rw [if_neg hsym]
    rcases h with h | ⟨q, hq, hq0⟩ | ⟨q, hq, hq0⟩
    · exact absurd h hsym
    · simp [hq, hq0]
    · rcases hsh : pyFloatOfString (pyStrip sharesIn) with _ | s
      · simp [hsh]
      · by_cases hs0 : s ≤ 0
        · simp [hsh, hs0]
        · simp [hsh, hs0, hq, hq0]

/-- Witness for C3: a blank symbol input is rejected and the store
`[{AAPL, 1, 1}]` is untouched and not saved. -/
theorem add_stock_atomic_witness :
    (add_stock [(⟨"AAPL", 1, 1⟩ : Row)] " " "5" "10").error.isSome = true
      ∧ (add_stock [(⟨"AAPL", 1, 1⟩ : Row)] " " "5" "10").rows
          = [(⟨"AAPL", 1, 1⟩ : Row)]
      ∧ (add_stock [(⟨"AAPL", 1, 1⟩ : Row)] " " "5" "10").saved = false :=
  add_stock_atomic [⟨"AAPL", 1, 1⟩] " " "5" "10" (Or.inl (by decide))

/-- C10 (frame property): a valid add for symbol `S` either appends one new
row at the end, leaving every existing row untouched, or replaces exactly
the first row whose uppercased symbol is `S` by its merge with the incoming
lot; in both cases every holding for a different symbol keeps its exact
symbol, shares and cost basis, and the relative order of pre-existing rows
is unchanged. -/
theorem upsert_frame (rows : List Row) (S : String) (sh c : ℚ)
    (_hS : S ≠ "") (_hsh : 0 < sh) (_hc : 0 ≤ c) :
    ((∀ r ∈ rows, pyUpper r.symbol ≠ S)
        ∧ upsert rows S sh c = rows ++ [⟨S, sh, c⟩])
    ∨ (∃ pre m post, rows = pre ++ m :: post
        ∧ (∀ r ∈ pre, pyUpper r.symbol ≠ S)
        ∧ pyUpper m.symbol = S
        ∧ upsert rows S sh c = pre ++ mergeRow m sh c :: post) := by
  induction rows with
  | nil => exact Or.inl ⟨by simp, by simp [upsert]⟩
  | cons r rest ih =>
    by_cases hm : pyUpper r.symbol = S
    · exact Or.inr ⟨[], r, rest, rfl, by simp, hm, by simp [upsert, hm]⟩
    · rcases ih with ⟨hall, heq⟩ | ⟨pre, m, post, hsplit, hpre, hm2, heq⟩
      · refine Or.inl ⟨?_, ?_⟩
        · intro r' hr'
          rcases List.mem_cons.mp hr' with h | h
          · rw [h]; exact hm
          · exact hall r' h
        · simp only [upsert, if_neg hm, heq, List.cons_append]
      · refine Or.inr ⟨r :: pre, m, post, by rw [hsplit, List.cons_append], ?_, hm2, ?_⟩
        · intro r' hr'
          rcases List.mem_cons.mp hr' with h | h
          · rw [h]; exact hm
          · exact hpre r' h
        · simp only [upsert, if_neg hm, heq, List.cons_append]

/-- Witness for C10: adding 2 shares of AAPL at 100 to a store holding only
an MSFT row appends a new AAPL row and leaves the MSFT row untouched. -/
theorem upsert_frame_witness :
    ((∀ r ∈ [(⟨"MSFT", 5, 20⟩ : Row)], pyUpper r.symbol ≠ "AAPL")
        ∧ upsert [(⟨"MSFT", 5, 20⟩ : Row)] "AAPL" 2 100
            = [(⟨"MSFT", 5, 20⟩ : Row)] ++ [⟨"AAPL", 2, 100⟩])
    ∨ (∃ pre m post, [(⟨"MSFT", 5, 20⟩ : Row)] = pre ++ m :: post
        ∧ (∀ r ∈ pre, pyUpper r.symbol ≠ "AAPL")
        ∧ pyUpper m.symbol = "AAPL"
        ∧ upsert [(⟨"MSFT", 5, 20⟩ : Row)] "AAPL" 2 100
            = pre ++ mergeRow m 2 100 :: post) :=
  upsert_frame [⟨"MSFT", 5, 20⟩] "AAPL" 2 100 (by decide) (by norm_num)
    (by norm_num)

/-- A Python value as produced by `json.load`: JSON null, booleans, numbers
(integers and floats kept apart, as Python renders and coerces them
differently), strings, arrays, and objects (string-keyed dicts; with
duplicate keys the later binding wins, as in Python's JSON decoder). -/
inductive PyVal where
  | pnone
  | pbool (b : Bool)
  | pint (n : ℤ)
  | pfloat (q : ℚ)
  | pstr (s : String)
  | plist (xs : List PyVal)
  | pdict (fields : List (String × PyVal))
  deriving Repr

/-- Python `repr`, which `str` falls back to on non-string values.  Floats
have no exact decimal form inside the rational model: a rational with
denominator 1 prints as `n.0`, anything else as a fraction; string quoting
is simplified to plain surrounding quotes. -/
def pyRepr : PyVal → String
  | .pnone => "None"
  | .pbool true => "True"
  | .pbool false => "False"
  | .pint n => toString n
  | .pfloat q =>
    if q.den = 1 then toString q.num ++ ".0"
    else toString q.num ++ "/" ++ toString q.den
  | .plist xs =>
    "[" ++ String.intercalate ", " (xs.attach.map fun v => pyRepr v.1) ++ "]"
  | .pdict fs =>
    "\x7b" ++ String.intercalate ", "
        (fs.attach.map fun kv => "\x27" ++ kv.1.1 ++ "\x27: " ++ pyRepr kv.1.2)
      ++ "\x7d"
  | .pstr s => "\x27" ++ s ++ "\x27"
decreasing_by
  · simp_wf
    have := List.sizeOf_lt_of_mem v.2
    omega
  · simp_wf
    obtain ⟨⟨k, v⟩, hm⟩ := kv
    have h1 := List.sizeOf_lt_of_mem hm
    simp at h1 ⊢
    omega

/-- Python `str(x)`: the string itself for strings, `repr` otherwise. -/
def pyStr : PyVal → String
  | .pstr s => s
  | v => pyRepr v

/-- Python truthiness of a JSON-decoded value: `None`, `False`, numeric
zero, and empty strings/lists/dicts are falsy. -/
def pyTruthy : PyVal → Bool
  | .pnone => false
  | .pbool b => b
  | .pint n => n != 0
  | .pfloat q => q != 0
  | .pstr s => s != ""
  | .plist xs => !xs.isEmpty
  | .pdict fs => !fs.isEmpty

/-- The expression `x or 0` in `load_portfolio`: Python `or` returns the
left operand when truthy, otherwise the right operand (the int `0`). -/
def pyOrZero (v : PyVal) : PyVal :=
  if pyTruthy v then v else .pint 0

/-- Exceptions that can escape `load_portfolio`: `float()` on an unparsable
string raises `ValueError`; `float()` on `None`, a list or a dict raises
`TypeError`; `.get` on a non-dict row raises `AttributeError`.  The
function catches only `json.JSONDecodeError`. -/
inductive LoadError where
  | valueError
  | typeError
  | attributeError
  deriving Repr, DecidableEq

/-- Python `float(x)` on a JSON-decoded value: numbers pass through, bools
become 0/1, strings are parsed, everything else raises. -/
def pyFloat : PyVal → Except LoadError ℚ
  | .pint n => .ok (n : ℚ)
  | .pfloat q => .ok q
  | .pbool b => .ok (if b then 1 else 0)
  | .pstr s =>
    match pyFloatOfString s with
    | some q => .ok q
    | none => .error .valueError
  | .pnone => .error .typeError
  | .plist _ => .error .typeError
  | .pdict _ => .error .typeError

/-- Lookup in a decoded JSON object: with duplicate keys the last binding
wins, as in Python's JSON decoder. -/
def dictFind (fields : List (String × PyVal)) (k : String) : Option PyVal :=
  fields.foldl (fun acc kv => if kv.1 = k then some kv.2 else acc) none

/-- Python `row.get(k, default)`. -/
def dictGetD (fields : List (String × PyVal)) (k : String) (d : PyVal) :
    PyVal :=
  (dictFind fields k).getD d

/-- Normalization of one raw row inside `load_portfolio` (lines 32–35):
`row["symbol"] = str(row.get("symbol", "")).upper()`,
`row["shares"] = float(row.get("shares", 0) or 0)`,
`row["price"]  = float(row.get("price", 0) or 0)`.
A non-dict row has no `.get` and raises `AttributeError`; a failing
`float()` raises in field order (shares before price). -/
def normalizeRow : PyVal → Except LoadError Row
  | .pdict fields =>
    match pyFloat (pyOrZero (dictGetD fields "shares" (.pint 0))),
          pyFloat (pyOrZero (dictGetD fields "price" (.pint 0))) with
    | .ok sh, .ok pr =>
      .ok ⟨pyUpper (pyStr (dictGetD fields "symbol" (.pstr ""))), sh, pr⟩
    | .error e, _ => .error e
    | .ok _, .error e => .error e
  | _ => .error .attributeError

/-- Contents of `stock_data.json` as `load_portfolio` sees them: the file
may be absent, fail JSON decoding, or decode to a Python value. -/
inductive FileState where
  | missing
  | badJson
  | json (v : PyVal)

/-- `load_portfolio` (lines 23–39): a missing file, a
`json.JSONDecodeError`, or a decoded document that is not a list all yield
`[]`; a decoded list is normalized row by row, any exception raised during
normalization propagating to the caller (only `JSONDecodeError` is
caught). -/
def load_portfolio : FileState → Except LoadError (List Row)
  | .missing => .ok []
  | .badJson => .ok []
  | .json (.plist xs) => xs.mapM normalizeRow
  | .json _ => .ok []

/-- Helper: a successful `Except`-valued `mapM` determines its output
pointwise — same length, and each output element is the successful image of
the corresponding input element. -/
theorem mapM_except_ok {α β ε : Type} (f : α → Except ε β) :
    ∀ (xs : List α) (rows : List β), xs.mapM f = .ok rows →
      rows.length = xs.length
        ∧ ∀ i (hx : i < xs.length) (hr : i < rows.length),
            f (xs.get ⟨i, hx⟩) = .ok (rows.get ⟨i, hr⟩) := by
  intro xs
  induction xs with
  | nil =>
    intro rows h
    simp only [List.mapM_nil, pure, Except.pure, Except.ok.injEq] at h
    subst h
    exact ⟨rfl, fun i hx hr => absurd hx (Nat.not_lt_zero i)⟩
  | cons x xs ih =>
    intro rows h
    rw [List.mapM_cons] at h
    rcases hfx : f x with e | b <;> rw [hfx] at h
    · simp [Bind.bind, Except.bind] at h
    · rcases hxs : xs.mapM f with e' | bs <;> rw [hxs] at h
      · simp [Bind.bind, Except.bind] at h
      · simp only [Bind.bind, Except.bind, pure, Except.pure,
          Except.ok.injEq] at h
        subst h
        obtain ⟨hlen, hget⟩ := ih bs hxs
        refine ⟨by simp [hlen], ?_⟩
        intro i hx hr
        match i with
        | 0 => exact hfx
        | i + 1 =>
          exact hget i (Nat.lt_of_succ_lt_succ hx) (Nat.lt_of_succ_lt_succ hr)

/-- Counterexample to C8: `load_portfolio` uppercases but does not trim
symbols (a raw symbol `" aapl "` loads as `" AAPL "`), and a truthy
non-numeric shares value is not treated as 0 — `float("abc")` raises a
`ValueError` that propagates out of the load instead of yielding an empty
sequence. -/
theorem load_portfolio_c8_counterexample :
    load_portfolio (.json (.plist
        [.pdict [("symbol", .pstr " aapl "), ("shares", .pint 2),
          ("price", .pint 3)]]))
      = .ok [⟨" AAPL ", 2, 3⟩]
    ∧ " AAPL " ≠ pyStrip " AAPL "
    ∧ load_portfolio (.json (.plist [.pdict [("symbol", .pstr "A"),
        ("shares", .pstr "abc"), ("price", .pint 1)]]))
      = .error .valueError :=
  ⟨rfl, by decide, rfl⟩

/-- C8 as amended: a missing file, undecodable JSON, or a non-list document
loads as the empty sequence; a decoded list is normalized row by row in
order; each normalized row's symbol is the uppercased (untrimmed)
stringification of the raw `symbol` field (default `""`); a falsy raw
`shares`/`price` field (missing, null, `0`, `""`, …) is coerced to 0; and a
truthy non-numeric string in `shares` makes the load raise `ValueError`
instead of coercing to 0. -/
theorem load_portfolio_normalized :
    (load_portfolio .missing = .ok []
      ∧ load_portfolio .badJson = .ok []
      ∧ ∀ v : PyVal, (∀ xs, v ≠ .plist xs) → load_portfolio (.json v) = .ok [])
    ∧ (∀ xs rows, load_portfolio (.json (.plist xs)) = .ok rows →
        rows.length = xs.length
          ∧ ∀ i (hx : i < xs.length) (hr : i < rows.length),
              normalizeRow (xs.get ⟨i, hx⟩) = .ok (rows.get ⟨i, hr⟩))
    ∧ (∀ fields r, normalizeRow (.pdict fields) = .ok r →
        r.symbol = pyUpper (pyStr (dictGetD fields "symbol" (.pstr "")))
          ∧ (pyTruthy (dictGetD fields "shares" (.pint 0)) = false →
              r.shares = 0)
          ∧ (pyTruthy (dictGetD fields "price" (.pint 0)) = false →
              r.price = 0))
    ∧ (∀ fields s, dictGetD fields "shares" (.pint 0) = .pstr s → s ≠ "" →
        pyFloatOfString s = none →
        normalizeRow (.pdict fields) = .error .valueError) := by
  refine ⟨⟨rfl, rfl, ?_⟩, ?_, ?_, ?_⟩
  · intro v hv
    cases v with
    | plist xs => exact absurd rfl (hv xs)
    | pnone => rfl
    | pbool b => rfl
    | pint n => rfl
    | pfloat q => rfl
    | pstr s => rfl
    | pdict fs => rfl
  · exact fun xs rows h => mapM_except_ok normalizeRow xs rows h
  · intro fields r h
    simp only [normalizeRow] at h
    rcases hsh : pyFloat (pyOrZero (dictGetD fields "shares" (.pint 0)))
      with e | sh <;> rw [hsh] at h
    · simp at h
    · rcases hpr : pyFloat (pyOrZero (dictGetD fields "price" (.pint 0)))
        with e | pr <;> rw [hpr] at h
      · simp at h
      · simp only [Except.ok.injEq] at h
        subst h
        refine ⟨rfl, ?_, ?_⟩
        · intro hf
          rw [pyOrZero, hf, if_neg (by simp)] at hsh
          simp only [pyFloat, Int.cast_zero, Except.ok.injEq] at hsh
          exact hsh.symm
        · intro hf
          rw [pyOrZero, hf, if_neg (by simp)] at hpr
          simp only [pyFloat, Int.cast_zero, Except.ok.injEq] at hpr
          exact hpr.symm
  · intro fields s hf hs hparse
    simp only [normalizeRow, pyOrZero, hf, pyTruthy]
    rw [if_pos (by simp [hs])]
    simp [pyFloat, hparse]

/-- Witness for the amended C8: a raw row with symbol `"msft"` and a null
shares field normalizes to symbol `"MSFT"` with 0 shares. -/
theorem load_portfolio_normalized_witness :
    ((⟨"MSFT", 0, 0⟩ : Row).symbol
        = pyUpper (pyStr (dictGetD
            [("symbol", .pstr "msft"), ("shares", .pnone)] "symbol"
            (.pstr "")))
      ∧ (pyTruthy (dictGetD [("symbol", .pstr "msft"), ("shares", .pnone)]
            "shares" (.pint 0)) = false → (⟨"MSFT", 0, 0⟩ : Row).shares = 0)
      ∧ (pyTruthy (dictGetD [("symbol", .pstr "msft"), ("shares", .pnone)]
            "price" (.pint 0)) = false → (⟨"MSFT", 0, 0⟩ : Row).price = 0)) :=
  load_portfolio_normalized.2.2.1
    [("symbol", .pstr "msft"), ("shares", .pnone)] ⟨"MSFT", 0, 0⟩ rfl

/-- The store invariant as the spec words it: at most one holding per
normalized symbol, where normalization uppercases and trims and equality is
case-insensitive. -/
def UniqueByNormalized (rows : List Row) : Prop :=
  rows.Pairwise fun a b => pyStrip (pyUpper a.symbol) ≠ pyStrip (pyUpper b.symbol)

/-- The discipline the code actually maintains: at most one holding per
uppercased (untrimmed) symbol. -/
def UniqueByUpper (rows : List Row) : Prop :=
  rows.Pairwise fun a b => pyUpper a.symbol ≠ pyUpper b.symbol

/-- Counterexample to C9: a single `load_portfolio` of a file whose two
entries read `"aapl"` and `"AAPL"` produces a store with two holdings of
the same normalized symbol — the load performs no deduplication, so the
claimed invariant does not survive arbitrary loads. -/
theorem store_invariant_c9_counterexample :
    load_portfolio (.json (.plist
        [.pdict [("symbol", .pstr "aapl"), ("shares", .pint 1),
          ("price", .pint 10)],
         .pdict [("symbol", .pstr "AAPL"), ("shares", .pint 2),
          ("price", .pint 20)]]))
      = .ok [⟨"AAPL", 1, 10⟩, ⟨"AAPL", 2, 20⟩]
    ∧ ¬ UniqueByNormalized [(⟨"AAPL", 1, 10⟩ : Row), ⟨"AAPL", 2, 20⟩] := by
  refine ⟨rfl, ?_⟩
  intro h
  rw [UniqueByNormalized, List.pairwise_cons] at h
  exact h.1 _ (List.mem_cons_self _ _) rfl

/-- Every row of an upserted store carries either the upserted symbol or
the symbol of some pre-existing row. -/
theorem upsert_symbol_mem (rows : List Row) (S : String) (sh c : ℚ) :
    ∀ b ∈ upsert rows S sh c,
      b.symbol = S ∨ ∃ b' ∈ rows, b.symbol = b'.symbol := by
  induction rows with
  | nil =>
    intro b hb
    simp only [upsert, List.mem_singleton] at hb
    subst hb
    exact Or.inl rfl
  | cons r rest ih =>
    intro b hb
    by_cases hm : pyUpper r.symbol = S
    · rw [upsert, if_pos hm] at hb
      rcases List.mem_cons.mp hb with h | h
      · exact Or.inr ⟨r, List.mem_cons_self r rest, by rw [h]; rfl⟩
      · exact Or.inr ⟨b, List.mem_cons_of_mem r h, rfl⟩
    · rw [upsert, if_neg hm] at hb
      rcases List.mem_cons.mp hb with h | h
      · exact Or.inr ⟨r, List.mem_cons_self r rest, by rw [h]⟩
      · rcases ih b h with h' | ⟨b', hb', h'⟩
        · exact Or.inl h'
        · exact Or.inr ⟨b', List.mem_cons_of_mem r hb', h'⟩

/-- C9 as amended: `upsert` preserves at-most-one-holding-per-uppercased
symbol (the load itself does not deduplicate); `find_row` matches the
stored uppercased symbol against the uppercased and stripped query (only
the query is trimmed), and on a store satisfying the uniqueness discipline
it returns the one holding with that symbol, or `none` when no row
matches. -/
theorem store_unique_and_find :
    (∀ rows S sh c, pyUpper S = S → UniqueByUpper rows →
        UniqueByUpper (upsert rows S sh c))
    ∧ (∀ rows q r, UniqueByUpper rows → find_row rows q = some r →
        r ∈ rows ∧ pyUpper r.symbol = pyStrip (pyUpper q)
          ∧ ∀ r' ∈ rows, pyUpper r'.symbol = pyStrip (pyUpper q) → r' = r)
    ∧ (∀ rows q, (∀ r ∈ rows, pyUpper r.symbol ≠ pyStrip (pyUpper q)) →
        find_row rows q = none) := by
  refine ⟨?_, ?_, ?_⟩
  · intro rows S sh c hS
    induction rows with
    | nil =>
      intro _
      rw [UniqueByUpper]
      simp [upsert]
    | cons r rest ih =>
      intro hu
      rw [UniqueByUpper, List.pairwise_cons] at hu
      obtain ⟨hhead, hrest⟩ := hu
      by_cases hm : pyUpper r.symbol = S
      · rw [upsert, if_pos hm, UniqueByUpper, List.pairwise_cons]
        exact ⟨fun b hb => by rw [mergeRow]; exact hhead b hb, hrest⟩
      · rw [upsert, if_neg hm, UniqueByUpper, List.pairwise_cons]
        refine ⟨?_, ih hrest⟩
        intro b hb
        rcases upsert_symbol_mem rest S sh c b hb with h | ⟨b', hb', h⟩
        · rw [h, hS]; exact hm
        · rw [h]; exact hhead b' hb'
  · intro rows q r hu h
    rw [find_row] at h
    induction rows with
    | nil => simp at h
    | cons a rest ih =>
      rw [UniqueByUpper, List.pairwise_cons] at hu
      obtain ⟨hhead, hrest⟩ := hu
      by_cases hpa : pyUpper a.symbol = pyStrip (pyUpper q)
      · rw [List.find?_cons_of_pos _ (by simpa using hpa)] at h
        obtain rfl : a = r := by simpa using h
        refine ⟨List.mem_cons_self a rest, hpa, ?_⟩
        intro r' hr' hr'p
        rcases List.mem_cons.mp hr' with h' | h'
        · exact h'
        · exact absurd (hpa.trans hr'p.symm) (hhead r' h')
      · rw [List.find?_cons_of_neg _ (by simpa using hpa)] at h
        obtain ⟨hmem, hprop, huniq⟩ := ih hrest h
        refine ⟨List.mem_cons_of_mem a hmem, hprop, ?_⟩
        intro r' hr' hr'p
        rcases List.mem_cons.mp hr' with h' | h'
        · exact absurd (h' ▸ hr'p) hpa
        · exact huniq r' h' hr'p
  · intro rows q hall
    rw [find_row, List.find?_eq_none]
    intro r hr
    simpa using hall r hr

/-- Witness for the amended C9: on the store `[{AAPL, 1, 10}]` the query
`" aapl "` finds that single holding. -/
theorem store_unique_and_find_witness :
    (⟨"AAPL", 1, 10⟩ : Row) ∈ [(⟨"AAPL", 1, 10⟩ : Row)]
      ∧ pyUpper (⟨"AAPL", 1, 10⟩ : Row).symbol = pyStrip (pyUpper " aapl ")
      ∧ ∀ r' ∈ [(⟨"AAPL", 1, 10⟩ : Row)],
          pyUpper r'.symbol = pyStrip (pyUpper " aapl ") →
            r' = ⟨"AAPL", 1, 10⟩ :=
  store_unique_and_find.2.1 [⟨"AAPL", 1, 10⟩] " aapl " ⟨"AAPL", 1, 10⟩
    (by rw [UniqueByUpper]; simp) (by decide)

/-- Two-decimal money formatting (`f"...:.2f"`): cents rounded to nearest,
then printed with two decimals.  (Exact tie behaviour of binary floats is
outside the rational model.) -/
def fmt2 (q : ℚ) : String :=
  let cents : ℤ := round (q * 100)
  let a := cents.natAbs
  (if cents < 0 then "-" else "") ++ toString (a / 100) ++ "."
    ++ (if a % 100 < 10 then "0" else "") ++ toString (a % 100)

/-- The `Live` column of a printed row: `f"${live:.2f}"` when the price is
a number, the literal `"n/a"` when `get_live_price` returned `None`. -/
def liveDisplay : Option ℚ → String
  | some q => "$" ++ fmt2 q
  | none => "n/a"

/-- One printed row of `view_portfolio`: uppercased symbol, shares, cost
basis, the possibly-unavailable live price and its rendering, the row value
`(live or 0) * shares`, and the profit/loss `value - cost * shares`. -/
structure ViewRow where
  symbol : String
  shares : ℚ
  cost : ℚ
  live : Option ℚ
  liveDisp : String
  value : ℚ
  pl : ℚ
  deriving Repr, DecidableEq

/-- State accumulated by the `view_portfolio` row loop: the rows printed so
far, the two grand totals, the symbols for which `get_live_price` was
actually invoked (in call order), and the price cache. -/
structure ViewState where
  vrows : List ViewRow
  gv : ℚ
  gc : ℚ
  calls : List String
  cache : List (String × Option ℚ)
  deriving Repr, DecidableEq

/-- Lookup in the `price_cache` dict (`sym in price_cache` followed by
`price_cache[sym]`). -/
def cacheGet : List (String × Option ℚ) → String → Option (Option ℚ)
  | [], _ => none
  | kv :: rest, s => if kv.1 = s then some kv.2 else cacheGet rest s

/-- The row loop of `view_portfolio` (lines 148–164), with the price source
`get_live_price` abstracted as the pure function `price`: each row's
uppercased symbol is looked up in the cache and fetched (recording the call)
only on a miss; the row is assembled with `value = (live or 0) * shares`
and `pl = value - cost * shares`, and the grand totals accumulate in row
order. -/
def viewAux (price : String → Option ℚ) :
    List Row → List (String × Option ℚ) → ViewState
  | [], c => ⟨[], 0, 0, [], c⟩
  | r :: rest, c =>
    let sym := pyUpper r.symbol
    let hit := cacheGet c sym
    let live := match hit with | some v => v | none => price sym
    let c1 := match hit with | some _ => c | none => (sym, price sym) :: c
    let called : List String := match hit with | some _ => [] | none => [sym]
    let value := live.getD 0 * r.shares
    let pl := value - r.price * r.shares
    let st := viewAux price rest c1
    ⟨⟨sym, r.shares, r.price, live, liveDisplay live, value, pl⟩ :: st.vrows,
      value + st.gv, r.price * r.shares + st.gc, called ++ st.calls, st.cache⟩

/-- Everything one `view_portfolio` call displays: the per-holding rows, the
grand totals, the printed total P/L `grand_value - grand_cost`, the percent
change (printed only when both totals are truthy), and the symbols fetched
from the live-price source. -/
structure ViewResult where
  vrows : List ViewRow
  grandValue : ℚ
  grandCost : ℚ
  grandPL : ℚ
  percentChange : Option ℚ
  calls : List String
  deriving Repr, DecidableEq

/-- `view_portfolio` (lines 131–171): an empty portfolio prints a message
and returns early (modelled as `none`); otherwise the loop runs with a
fresh empty cache, the totals line prints `grand_value` and
`grand_value - grand_cost`, and the percent-change line appears only when
both `grand_value` and `grand_cost` are truthy, i.e. non-zero. -/
def view_portfolio (rows : List Row) (price : String → Option ℚ) :
    Option ViewResult :=
  if rows.isEmpty then none
  else
    let st := viewAux price rows []
    some ⟨st.vrows, st.gv, st.gc, st.gv - st.gc,
      if st.gv ≠ 0 ∧ st.gc ≠ 0 then some ((st.gv - st.gc) / st.gc * 100)
      else none,
      st.calls⟩

/-- The row `view_portfolio` prints for holding `r`, given that the live
price used for it is `price (pyUpper r.symbol)`. -/
def rowOf (price : String → Option ℚ) (r : Row) : ViewRow :=
  let sym := pyUpper r.symbol
  let live := price sym
  let value := live.getD 0 * r.shares
  ⟨sym, r.shares, r.price, live, liveDisplay live, value,
    value - r.price * r.shares⟩

/-- Helper: the `view_portfolio` loop, run from any cache that agrees with
the price source, prints exactly the `rowOf` rows in order, accumulates the
two totals as sums over the rows, performs no duplicate fetch, fetches
exactly the uppercased symbols not already cached, and leaves a cache that
still agrees with the price source. -/
theorem viewAux_spec (price : String → Option ℚ) :
    ∀ (rows : List Row) (c : List (String × Option ℚ)),
      (∀ s v, cacheGet c s = some v → v = price s) →
      (viewAux price rows c).vrows = rows.map (rowOf price)
        ∧ (viewAux price rows c).gv
            = (rows.map fun r =>
                (price (pyUpper r.symbol)).getD 0 * r.shares).sum
        ∧ (viewAux price rows c).gc
            = (rows.map fun r => r.price * r.shares).sum
        ∧ (viewAux price rows c).calls.Nodup
        ∧ (∀ s, s ∈ (viewAux price rows c).calls ↔
            (s ∈ rows.map fun r => pyUpper r.symbol) ∧ cacheGet c s = none)
        ∧ (∀ s v, cacheGet (viewAux price rows c).cache s = some v →
            v = price s) := by
  intro rows
  induction rows with
  | nil =>
    intro c hc
    refine ⟨rfl, rfl, rfl, List.nodup_nil, ?_, hc⟩
    intro s
    simp [viewAux]
  | cons r rest ih =>
    intro c hc
    rcases hget : cacheGet c (pyUpper r.symbol) with _ | v
    · -- cache miss: the price is fetched and recorded
      have hc1 : ∀ s v, cacheGet ((pyUpper r.symbol, price (pyUpper r.symbol))
          :: c) s = some v → v = price s := by
        intro s v h
        rw [cacheGet] at h
        by_cases hs : pyUpper r.symbol = s
        · rw [if_pos hs] at h
          obtain rfl : price (pyUpper r.symbol) = v := by simpa using h
          rw [hs]
        · rw [if_neg hs] at h
          exact hc s v h
      obtain ⟨hrows, hgv, hgc, hnd, hmem, hcache⟩ :=
        ih ((pyUpper r.symbol, price (pyUpper r.symbol)) :: c) hc1
      simp only [viewAux, hget]
      refine ⟨?_, ?_, ?_, ?_, ?_, hcache⟩
      · rw [List.map_cons, hrows]
        rfl
      · rw [List.map_cons, List.sum_cons, hgv]
      · rw [List.map_cons, List.sum_cons, hgc]
      · refine List.Nodup.cons ?_ hnd
        intro hmem'
        have := (hmem (pyUpper r.symbol)).mp hmem'
        rw [cacheGet, if_pos rfl] at this
        exact Option.noConfusion this.2
      · intro s
        constructor
        · intro hs
          rcases List.mem_cons.mp hs with h | h
          · subst h
            exact ⟨List.mem_cons_self _ _, hget⟩
          · obtain ⟨hin, hnone⟩ := (hmem s).mp h
            rw [cacheGet] at hnone
            by_cases hne : pyUpper r.symbol = s
            · rw [if_pos hne] at hnone
              exact Option.noConfusion hnone
            · rw [if_neg hne] at hnone
              exact ⟨List.mem_cons_of_mem _ hin, hnone⟩
        · rintro ⟨hin, hnone⟩
          by_cases hne : pyUpper r.symbol = s
          · rw [← hne]
            exact List.mem_cons_self _ _
          · rcases List.mem_cons.mp hin with h | h
            · exact absurd h.symm hne
            · refine List.mem_cons_of_mem _ ((hmem s).mpr ⟨h, ?_⟩)
              rw [cacheGet, if_neg hne]
              exact hnone
    · -- cache hit: the cached value is the price, nothing is fetched
      have hv : v = price (pyUpper r.symbol) := hc _ _ hget
      obtain ⟨hrows, hgv, hgc, hnd, hmem, hcache⟩ := ih c hc
      simp only [viewAux, hget]
      refine ⟨?_, ?_, ?_, hnd, ?_, hcache⟩
      · rw [List.map_cons, hrows, hv]
        rfl
      · rw [List.map_cons, List.sum_cons, hgv, hv]
      · rw [List.map_cons, List.sum_cons, hgc]
      · intro s
        rw [List.nil_append, hmem s, List.map_cons]
        constructor
        · rintro ⟨hin, hnone⟩
          exact ⟨List.mem_cons_of_mem _ hin, hnone⟩
        · rintro ⟨hin, hnone⟩
          rcases List.mem_cons.mp hin with h | h
          · subst h
            rw [hget] at hnone
            exact Option.noConfusion hnone
          · exact ⟨h, hnone⟩

/-- Helper: inversion of a successful `view_portfolio` call — the result is
assembled from the final loop state together with the percent guard. -/
theorem view_portfolio_some (rows : List Row) (price : String → Option ℚ)
    (res : ViewResult) (h : view_portfolio rows price = some res) :
    res = ⟨(viewAux price rows []).vrows, (viewAux price rows []).gv,
      (viewAux price rows []).gc,
      (viewAux price rows []).gv - (viewAux price rows []).gc,
      if (viewAux price rows []).gv ≠ 0 ∧ (viewAux price rows []).gc ≠ 0
        then some (((viewAux price rows []).gv - (viewAux price rows []).gc)
          / (viewAux price rows []).gc * 100)
        else none,
      (viewAux price rows []).calls⟩ := by
  rw [view_portfolio] at h
  by_cases he : rows.isEmpty
  · rw [if_pos he] at h
    exact Option.noConfusion h
  · rw [if_neg he] at h
    exact (Option.some.inj h).symm

/-- C4: each holding yields one output row, in input order, with
`value = (price or 0) * shares` and `profitLoss = value - costBasis*shares`;
the aggregates satisfy `totalValue = Σ value`,
`totalCost = Σ costBasis * shares`, and the printed total P/L is
`totalValue - totalCost`. -/
theorem view_portfolio_totals (rows : List Row) (price : String → Option ℚ)
    (res : ViewResult) (h : view_portfolio rows price = some res) :
    res.vrows = rows.map (rowOf price)
      ∧ (∀ r : Row, (rowOf price r).value
            = (price (pyUpper r.symbol)).getD 0 * r.shares
          ∧ (rowOf price r).pl
            = (rowOf price r).value - r.price * r.shares)
      ∧ res.grandValue = (res.vrows.map ViewRow.value).sum
      ∧ res.grandCost = (rows.map fun r => r.price * r.shares).sum
      ∧ res.grandPL = res.grandValue - res.grandCost := by
  obtain rfl := view_portfolio_some rows price res h
  obtain ⟨hrows, hgv, hgc, _, _, _⟩ :=
    viewAux_spec price rows [] (fun s v hv => by simp [cacheGet] at hv)
  refine ⟨hrows, fun r => ⟨rfl, rfl⟩, ?_, hgc, rfl⟩
  have hmap : ((viewAux price rows []).vrows.map ViewRow.value)
      = rows.map fun r => (price (pyUpper r.symbol)).getD 0 * r.shares := by
    rw [hrows, List.map_map]
    rfl
  rw [hmap]
  exact hgv

/-- Witness for C4 at the spec's example: a 10-share MSFT holding at cost 50
with live price 60 yields the row `value = 600`, `P/L = 100` and totals
`(600, 500, 100)`. -/
theorem view_portfolio_totals_witness :
    (⟨[⟨"MSFT", 10, 50, some 60, "$60.00", 600, 100⟩], 600, 500, 100,
        some 20, ["MSFT"]⟩ : ViewResult).vrows
        = [(⟨"MSFT", 10, 50⟩ : Row)].map (rowOf fun _ => some 60)
      ∧ (∀ r : Row, (rowOf (fun _ => some 60) r).value
            = ((fun _ : String => some (60 : ℚ)) (pyUpper r.symbol)).getD 0
                * r.shares
          ∧ (rowOf (fun _ => some 60) r).pl
            = (rowOf (fun _ => some 60) r).value - r.price * r.shares)
      ∧ (⟨[⟨"MSFT", 10, 50, some 60, "$60.00", 600, 100⟩], 600, 500, 100,
          some 20, ["MSFT"]⟩ : ViewResult).grandValue
        = ((⟨[⟨"MSFT", 10, 50, some 60, "$60.00", 600, 100⟩], 600, 500, 100,
            some 20, ["MSFT"]⟩ : ViewResult).vrows.map ViewRow.value).sum
      ∧ (⟨[⟨"MSFT", 10, 50, some 60, "$60.00", 600, 100⟩], 600, 500, 100,
          some 20, ["MSFT"]⟩ : ViewResult).grandCost
        = ([(⟨"MSFT", 10, 50⟩ : Row)].map fun r => r.price * r.shares).sum
      ∧ (⟨[⟨"MSFT", 10, 50, some 60, "$60.00", 600, 100⟩], 600, 500, 100,
          some 20, ["MSFT"]⟩ : ViewResult).grandPL
        = (⟨[⟨"MSFT", 10, 50, some 60, "$60.00", 600, 100⟩], 600, 500, 100,
            some 20, ["MSFT"]⟩ : ViewResult).grandValue
          - (⟨[⟨"MSFT", 10, 50, some 60, "$60.00", 600, 100⟩], 600, 500, 100,
              some 20, ["MSFT"]⟩ : ViewResult).grandCost :=
  view_portfolio_totals [⟨"MSFT", 10, 50⟩] (fun _ => some 60) _ (by
    simp only [view_portfolio, viewAux, cacheGet, liveDisplay, fmt2, pyUpper,
      List.isEmpty_cons]
    norm_num [round_eq]
    decide)

/-- C5: within one `view_portfolio` call the live-price source is consulted
at most once per distinct uppercased symbol — the fetched symbols are
exactly the distinct symbols of the holdings, without duplicates, so a
symbol appearing in several holdings is fetched exactly once. -/
theorem view_portfolio_memoized (rows : List Row) (price : String → Option ℚ)
    (res : ViewResult) (h : view_portfolio rows price = some res) :
    res.calls.Nodup
      ∧ (∀ s, s ∈ res.calls ↔ s ∈ rows.map fun r => pyUpper r.symbol)
      ∧ ∀ s ∈ (rows.map fun r => pyUpper r.symbol), res.calls.count s = 1 := by
  obtain rfl := view_portfolio_some rows price res h
  obtain ⟨_, _, _, hnd, hmem, _⟩ :=
    viewAux_spec price rows [] (fun s v hv => by simp [cacheGet] at hv)
  have hmem' : ∀ s, s ∈ (viewAux price rows []).calls ↔
      s ∈ rows.map fun r => pyUpper r.symbol := by
    intro s
    rw [hmem s]
    simp [cacheGet]
  exact ⟨hnd, hmem',
    fun s hs => List.count_eq_one_of_mem hnd ((hmem' s).mpr hs)⟩

/-- Witness for C5: two holdings spelling the same symbol `AAPL`/`aapl`
cause exactly one fetch of `"AAPL"`. -/
theorem view_portfolio_memoized_witness :
    (⟨[⟨"AAPL", 1, 10, none, "n/a", 0, -10⟩,
        ⟨"AAPL", 2, 20, none, "n/a", 0, -40⟩], 0, 50, -50, none,
        ["AAPL"]⟩ : ViewResult).calls.Nodup
      ∧ (∀ s, s ∈ (⟨[⟨"AAPL", 1, 10, none, "n/a", 0, -10⟩,
          ⟨"AAPL", 2, 20, none, "n/a", 0, -40⟩], 0, 50, -50, none,
          ["AAPL"]⟩ : ViewResult).calls ↔
            s ∈ [(⟨"AAPL", 1, 10⟩ : Row), ⟨"aapl", 2, 20⟩].map
              fun r => pyUpper r.symbol)
      ∧ ∀ s ∈ ([(⟨"AAPL", 1, 10⟩ : Row), ⟨"aapl", 2, 20⟩].map
            fun r => pyUpper r.symbol),
          (⟨[⟨"AAPL", 1, 10, none, "n/a", 0, -10⟩,
            ⟨"AAPL", 2, 20, none, "n/a", 0, -40⟩], 0, 50, -50, none,
            ["AAPL"]⟩ : ViewResult).calls.count s = 1 :=
  view_portfolio_memoized [⟨"AAPL", 1, 10⟩, ⟨"aapl", 2, 20⟩] (fun _ => none)
    _ (by
      simp only [view_portfolio, viewAux, cacheGet, liveDisplay, pyUpper,
        List.isEmpty_cons]
      norm_num
      decide)

/-- C6: a holding whose price lookup fails gets row value 0 (contributing 0
to the total value) and is rendered `"n/a"`, never `"$0.00"`; all other
rows and the totals are still produced — the output has one row per
holding and the grand total is still the sum over all rows. -/
theorem view_portfolio_handles_unavailable (rows : List Row)
    (price : String → Option ℚ) (res : ViewResult)
    (h : view_portfolio rows price = some res) :
    res.vrows = rows.map (rowOf price)
      ∧ res.vrows.length = rows.length
      ∧ (∀ r : Row, price (pyUpper r.symbol) = none →
          (rowOf price r).value = 0
            ∧ (rowOf price r).liveDisp = "n/a"
            ∧ (rowOf price r).liveDisp ≠ "$0.00")
      ∧ res.grandValue = (res.vrows.map ViewRow.value).sum := by
  obtain rfl := view_portfolio_some rows price res h
  obtain ⟨hrows, hgv, _, _, _, _⟩ :=
    viewAux_spec price rows [] (fun s v hv => by simp [cacheGet] at hv)
  refine ⟨hrows, by rw [hrows, List.length_map], ?_, ?_⟩
  · intro r hp
    refine ⟨by simp [rowOf, hp], by simp [rowOf, hp, liveDisplay], ?_⟩
    simp only [rowOf, hp, liveDisplay]
    decide
  · have hmap : ((viewAux price rows []).vrows.map ViewRow.value)
        = rows.map fun r => (price (pyUpper r.symbol)).getD 0 * r.shares := by
      rw [hrows, List.map_map]
      rfl
    rw [hmap]
    exact hgv

/-- Witness for C6: with its price unavailable, the 10-share MSFT row shows
`"n/a"`, contributes 0 to the total value, and the totals are still
computed. -/
theorem view_portfolio_handles_unavailable_witness :
    (⟨[⟨"MSFT", 10, 50, none, "n/a", 0, -500⟩], 0, 500, -500, none,
        ["MSFT"]⟩ : ViewResult).vrows
        = [(⟨"MSFT", 10, 50⟩ : Row)].map (rowOf fun _ => none)
      ∧ (⟨[⟨"MSFT", 10, 50, none, "n/a", 0, -500⟩], 0, 500, -500, none,
          ["MSFT"]⟩ : ViewResult).vrows.length
        = [(⟨"MSFT", 10, 50⟩ : Row)].length
      ∧ (∀ r : Row, (fun _ : String => (none : Option ℚ)) (pyUpper r.symbol)
            = none →
          (rowOf (fun _ => none) r).value = 0
            ∧ (rowOf (fun _ => none) r).liveDisp = "n/a"
            ∧ (rowOf (fun _ => none) r).liveDisp ≠ "$0.00")
      ∧ (⟨[⟨"MSFT", 10, 50, none, "n/a", 0, -500⟩], 0, 500, -500, none,
          ["MSFT"]⟩ : ViewResult).grandValue
        = ((⟨[⟨"MSFT", 10, 50, none, "n/a", 0, -500⟩], 0, 500, -500, none,
            ["MSFT"]⟩ : ViewResult).vrows.map ViewRow.value).sum :=
  view_portfolio_handles_unavailable [⟨"MSFT", 10, 50⟩] (fun _ => none) _ (by
    simp only [view_portfolio, viewAux, cacheGet, liveDisplay, pyUpper,
      List.isEmpty_cons]
    norm_num
    decide)

/-- C7: the percent change is present exactly when both totals are
non-zero, and whenever it is computed the divisor `totalCost` is non-zero
and the value is `totalPL / totalCost * 100` — the guarded division can
never be a division by zero. -/
theorem view_portfolio_percent_guard (rows : List Row)
    (price : String → Option ℚ) (res : ViewResult)
    (h : view_portfolio rows price = some res) :
    (res.percentChange.isSome = true ↔
        res.grandValue ≠ 0 ∧ res.grandCost ≠ 0)
      ∧ ∀ p, res.percentChange = some p →
          res.grandCost ≠ 0
            ∧ p = (res.grandValue - res.grandCost) / res.grandCost * 100 := by
  obtain rfl := view_portfolio_some rows price res h
  dsimp only
  by_cases hg : (viewAux price rows []).gv ≠ 0 ∧ (viewAux price rows []).gc ≠ 0
  · rw [if_pos hg]
    refine ⟨by simp [hg], ?_⟩
    intro p hp
    exact ⟨hg.2, (Option.some.inj hp).symm⟩
  · rw [if_neg hg]
    refine ⟨by simp [hg], ?_⟩
    intro p hp
    exact Option.noConfusion hp

/-- Witness for C7: with totals `(600, 500)` the percent change is present
and equals `+20%`. -/
theorem view_portfolio_percent_guard_witness :
    ((⟨[⟨"MSFT", 10, 50, some 60, "$60.00", 600, 100⟩], 600, 500, 100,
        some 20, ["MSFT"]⟩ : ViewResult).percentChange.isSome = true ↔
        (⟨[⟨"MSFT", 10, 50, some 60, "$60.00", 600, 100⟩], 600, 500, 100,
          some 20, ["MSFT"]⟩ : ViewResult).grandValue ≠ 0
          ∧ (⟨[⟨"MSFT", 10, 50, some 60, "$60.00", 600, 100⟩], 600, 500, 100,
            some 20, ["MSFT"]⟩ : ViewResult).grandCost ≠ 0)
      ∧ ∀ p, (⟨[⟨"MSFT", 10, 50, some 60, "$60.00", 600, 100⟩], 600, 500,
          100, some 20, ["MSFT"]⟩ : ViewResult).percentChange = some p →
          (⟨[⟨"MSFT", 10, 50, some 60, "$60.00", 600, 100⟩], 600, 500, 100,
            some 20, ["MSFT"]⟩ : ViewResult).grandCost ≠ 0
            ∧ p = ((⟨[⟨"MSFT", 10, 50, some 60, "$60.00", 600, 100⟩], 600,
                500, 100, some 20, ["MSFT"]⟩ : ViewResult).grandValue
              - (⟨[⟨"MSFT", 10, 50, some 60, "$60.00", 600, 100⟩], 600, 500,
                100, some 20, ["MSFT"]⟩ : ViewResult).grandCost)
              / (⟨[⟨"MSFT", 10, 50, some 60, "$60.00", 600, 100⟩], 600, 500,
                100, some 20, ["MSFT"]⟩ : ViewResult).grandCost * 100 :=
  view_portfolio_percent_guard [⟨"MSFT", 10, 50⟩] (fun _ => some 60) _ (by
    simp only [view_portfolio, viewAux, cacheGet, liveDisplay, fmt2, pyUpper,
      List.isEmpty_cons]
    norm_num [round_eq]
    decide)

end StockTracker
